import Mathlib

set_option maxRecDepth 40000

/-!
Verification of the orchestration utility library (src/utils.ts) against its
natural-language specification.  The completion client (llmCall, an external
HTTP call to a model provider) is modelled as an oracle function
`String → Except String String`: it receives the prompt text and either
returns generated text or fails, exactly the interface the library assumes.
Asynchronous fan-out (Promise.all) is modelled by sequencing in the Except
monad: the aggregate succeeds exactly when every element succeeds, and the
result list is index-aligned with the request list, which is the observable
contract of Promise.all.  JavaScript strings are modelled as Lean strings
(lists of characters).
-/

namespace Agents

/-- Characters treated as whitespace by JavaScript `trim` and the regex
class backslash-s, restricted to ASCII (space, tab, LF, CR, VT, FF). -/
def isWsChar (c : Char) : Bool :=
  c = ' ' || c = '\t' || c = '\n' || c = '\r' || c = '\x0b' || c = '\x0c'

/-- JavaScript `String.prototype.trim`: strip leading and trailing whitespace. -/
def jsTrim (s : String) : String :=
  String.mk (((s.data.dropWhile isWsChar).reverse.dropWhile isWsChar).reverse)

/-- JavaScript `String.prototype.toUpperCase` (ASCII range, which covers every
string the library compares). -/
def jsToUpperCase (s : String) : String := String.mk (s.data.map Char.toUpper)

/-- JavaScript `String.prototype.toLowerCase` (ASCII range). -/
def jsToLowerCase (s : String) : String := String.mk (s.data.map Char.toLower)

/-- Case-insensitive character comparison, as under the regex flag `i`. -/
def ciChar (a b : Char) : Bool := a.toLower == b.toLower

/-- `ciStartsWith pat l`: `pat` matches case-insensitively at the head of `l`. -/
def ciStartsWith : List Char → List Char → Bool
  | [], _ => true
  | _ :: _, [] => false
  | p :: ps, c :: cs => ciChar p c && ciStartsWith ps cs

/-- Scan for the first (leftmost) case-insensitive occurrence of `pat`;
return the text before it and the text after it, or `none` when `pat` does
not occur.  This is the backbone of the lazy (non-greedy) regex quantifier:
the earliest position at which the closing literal matches wins. -/
def splitFirst (pat : List Char) : List Char → Option (List Char × List Char)
  | [] => if ciStartsWith pat [] then some ([], []) else none
  | c :: rest =>
    if ciStartsWith pat (c :: rest) then some ([], (c :: rest).drop pat.length)
    else (splitFirst pat rest).map (fun pr => (c :: pr.1, pr.2))

/-- Engine for the regex `new RegExp("<tag>(.+?)</tag>", "is")` used by
`extractXml` in src/utils.ts (tag inserted literally after escaping).  Start
positions are tried left to right; at a start position the opening literal
must match case-insensitively, the lazy group `(.+?)` takes at least one
character (flag `s`: any character, newlines included), and the match
completes at the earliest subsequent closing literal.  If no completion
exists at a start position the engine moves one character forward. -/
def extractRaw (openT closeT : List Char) : List Char → Option (List Char)
  | [] => none
  | c :: rest =>
    if ciStartsWith openT (c :: rest) then
      match (c :: rest).drop openT.length with
      | [] => extractRaw openT closeT rest
      | d :: after =>
        match splitFirst closeT after with
        | some (u, _) => some (d :: u)
        | none => extractRaw openT closeT rest
    else extractRaw openT closeT rest

/-- `extractXml` from src/utils.ts: content of the first regex match of
`<tag>(.+?)</tag>` (flags `i`, `s`), trimmed; the empty string when the
regex does not match. -/
def extractXml (text tag : String) : String :=
  match extractRaw ("<" ++ tag ++ ">").data ("</" ++ tag ++ ">").data text.data with
  | some content => jsTrim (String.mk content)
  | none => ""

/-- `true` exactly when an `Except` value is a success. -/
def exceptOk {α : Type} : Except String α → Bool
  | .ok _ => true
  | .error _ => false

/-- `chain` from src/utils.ts: for each prompt in order, call the completion
client with `prompt ++ "\nInput: " ++ result` and thread the returned text
into the next step; return the last result.  A failed call propagates. -/
def chain (input : String) (prompts : List String) (llm : String → Except String String) :
    Except String String :=
  match prompts with
  | [] => .ok input
  | p :: ps => (llm (p ++ "\nInput: " ++ input)).bind (fun result => chain result ps llm)

/-- The list of prompts `chain` actually sends to the completion client
(instrumentation of the same loop: one call per iteration, stopping at the
first failure). -/
def chainCalls (input : String) (prompts : List String) (llm : String → Except String String) :
    List String :=
  match prompts with
  | [] => []
  | p :: ps =>
    (p ++ "\nInput: " ++ input) ::
      (match llm (p ++ "\nInput: " ++ input) with
       | .ok result => chainCalls result ps llm
       | .error _ => [])

/-- The prompts `parallel` builds, one per input, in input order (the
`inputs.map` of src/utils.ts). -/
def parallelCalls (prompt : String) (inputs : List String) : List String :=
  inputs.map (fun input => prompt ++ "\nInput: " ++ input)

/-- `Promise.all` over the Except model: succeeds with the index-aligned list
of results exactly when every element succeeds; otherwise fails. -/
def promiseAll {α : Type} : List (Except String α) → Except String (List α)
  | [] => .ok []
  | x :: xs =>
    match x with
    | .error e => .error e
    | .ok a =>
      match promiseAll xs with
      | .error e => .error e
      | .ok as => .ok (a :: as)

/-- `parallel` from src/utils.ts: one completion call per input with
`prompt ++ "\nInput: " ++ inputs[i]`, awaited together with `Promise.all`. -/
def parallel (prompt : String) (inputs : List String) (llm : String → Except String String) :
    Except String (List String) :=
  promiseAll ((parallelCalls prompt inputs).map llm)

/-- The classification prompt `route` builds: the template literal of
src/utils.ts with the route keys joined by `", "` and the input substituted,
then trimmed. -/
def selectorPrompt (input : String) (routeKeys : List String) : String :=
  jsTrim ("\nAnalyze the input and select the most appropriate support team from these options: "
    ++ String.intercalate ", " routeKeys
    ++ "\nFirst explain your reasoning, then provide your selection in this XML format:\n\n<reasoning>\nBrief explanation of why this ticket should be routed to a specific team.\nConsider key terms, user intent, and urgency level.\n</reasoning>\n\n<selection>\nThe chosen team name\n</selection>\n\nInput: "
    ++ input)

/-- `route` from src/utils.ts.  The route table (a plain JS object) is
modelled as an association list in key-insertion order.  After the
classification call, the `<selection>` content is trimmed and lowercased;
the lookup result is then guarded by the falsy test `if (!selectedPrompt)`,
which throws both when the key is absent (`undefined`) and when the stored
prompt is the empty string. -/
def route (input : String) (routes : List (String × String))
    (llm : String → Except String String) : Except String String :=
  match llm (selectorPrompt input (routes.map Prod.fst)) with
  | .error e => .error e
  | .ok routeResponse =>
    match routes.lookup (jsToLowerCase (jsTrim (extractXml routeResponse "selection"))) with
    | none =>
      .error ("Selected route \x22"
        ++ jsToLowerCase (jsTrim (extractXml routeResponse "selection")) ++ "\x22 is invalid.")
    | some selectedPrompt =>
      if selectedPrompt = "" then
        .error ("Selected route \x22"
          ++ jsToLowerCase (jsTrim (extractXml routeResponse "selection")) ++ "\x22 is invalid.")
      else llm (selectedPrompt ++ "\nInput: " ++ input)

/-- `generate` from src/utils.ts: build the full prompt (the context branch
is JavaScript truthiness, i.e. the context participates exactly when it is a
nonempty string), call the completion client once, and extract the
`thoughts` and `response` tags. -/
def generate (llm : String → Except String String) (prompt task context : String) :
    Except String (String × String) :=
  match llm (if context = "" then prompt ++ "\nTask: " ++ task
             else prompt ++ "\n" ++ context ++ "\nTask: " ++ task) with
  | .error e => .error e
  | .ok response => .ok (extractXml response "thoughts", extractXml response "response")

/-- `evaluate` from src/utils.ts: one completion call, then extraction of the
`evaluation` and `feedback` tags. -/
def evaluate (llm : String → Except String String) (prompt content task : String) :
    Except String (String × String) :=
  match llm (prompt ++ "\nOriginal task: " ++ task ++ "\nContent to evaluate: " ++ content) with
  | .error e => .error e
  | .ok response => .ok (extractXml response "evaluation", extractXml response "feedback")

/-- One (thoughts, result) record per generation attempt. -/
structure ChainOfThoughtItem where
  thoughts : String
  result : String
deriving DecidableEq

/-- The feedback context the loop builds before re-generating: the literal
line `Previous attempts:`, one `- `-prefixed line per remembered candidate,
and the latest feedback, joined with newlines (src/utils.ts). -/
def feedbackContext (memory : List String) (feedback : String) : String :=
  String.intercalate "\n"
    ("Previous attempts:" :: (memory.map (fun m => "- " ++ m) ++ ["\nFeedback: " ++ feedback]))

/-- The `while (true)` body of `loop` in src/utils.ts, with explicit fuel
standing for the number of remaining iterations of the unbounded source
loop: `.ok none` means the loop is still running when the fuel runs out
(the source loop has no built-in bound).  Each iteration evaluates the
latest candidate; the verdict terminates the loop exactly when its
`toUpperCase` equals `"PASS"`; otherwise a new generation attempt is made
with the accumulated feedback context and appended to memory and history. -/
def loopAux (llm : String → Except String String) (task evaluatorPrompt generatorPrompt : String) :
    Nat → String → List String → List ChainOfThoughtItem →
    Except String (Option (String × List ChainOfThoughtItem))
  | 0, _, _, _ => .ok none
  | fuel + 1, result, memory, chainOfThought =>
    match evaluate llm evaluatorPrompt result task with
    | .error e => .error e
    | .ok (evaluation, feedback) =>
      if jsToUpperCase evaluation = "PASS" then
        .ok (some (result, chainOfThought))
      else
        match generate llm generatorPrompt task (feedbackContext memory feedback) with
        | .error e => .error e
        | .ok (thoughts, result2) =>
          loopAux llm task evaluatorPrompt generatorPrompt fuel result2 (memory ++ [result2])
            (chainOfThought ++ [⟨thoughts, result2⟩])

/-- `loop` from src/utils.ts: first generation attempt without feedback
context, then the evaluate/refine iteration (`loopAux`). -/
def loop (llm : String → Except String String) (task evaluatorPrompt generatorPrompt : String)
    (fuel : Nat) : Except String (Option (String × List ChainOfThoughtItem)) :=
  match generate llm generatorPrompt task "" with
  | .error e => .error e
  | .ok (thoughts, result) =>
    loopAux llm task evaluatorPrompt generatorPrompt fuel result [result] [⟨thoughts, result⟩]

/-- A subtask parsed from the orchestrator decomposition (src/utils.ts
`TaskInfo`). -/
structure TaskInfo where
  type : String
  description : String
deriving DecidableEq

/-- One worker's outcome (src/utils.ts `WorkerResult`). -/
structure WorkerResult where
  type : String
  description : String
  result : String
deriving DecidableEq

/-- The aggregate result of `FlexibleOrchestrator.process`. -/
structure OrchestratorOutput where
  analysis : String
  worker_results : List WorkerResult
deriving DecidableEq

/-- Case-sensitive prefix test on character lists. -/
def listStartsWith : List Char → List Char → Bool
  | [], _ => true
  | _ :: _, [] => false
  | p :: ps, c :: cs => p == c && listStartsWith ps cs

/-- Replace every non-overlapping, leftmost-first occurrence of `pat` in the
text by `rep`, the behaviour of `formatted.replace(regex, value)` with a
global literal pattern.  The fuel is the length of the text; every step
consumes at least one character, so the fuel never runs out when the whole
text is passed.  (The source interpolates the key into a regex unescaped
and inserts the value as a replacement pattern; for the identifier keys and
plain values the orchestrator uses, both are literal, which is what is
modelled.) -/
def replaceAllAux (pat rep : List Char) : Nat → List Char → List Char
  | 0, s => s
  | _ + 1, [] => []
  | fuel + 1, c :: rest =>
    if !pat.isEmpty && listStartsWith pat (c :: rest) then
      rep ++ replaceAllAux pat rep fuel (rest.drop (pat.length - 1))
    else c :: replaceAllAux pat rep fuel rest

/-- Replace every occurrence of `pat` in `s` by `rep`. -/
def replaceAll (s : String) (pat rep : String) : String :=
  String.mk (replaceAllAux pat.data rep.data s.data.length s.data)

/-- The substitution phase of `FlexibleOrchestrator.formatPrompt`: for each
key/value pair in turn, replace every occurrence of the brace-wrapped key. -/
def formatPromptSubst (template : String) (kwargs : List (String × String)) : String :=
  kwargs.foldl (fun formatted kv => replaceAll formatted ("\x7b" ++ kv.1 ++ "\x7d") kv.2) template

/-- A character allowed inside a `\x7b...\x7d` placeholder token: anything
but a brace (the regex class excluding the two braces). -/
def isTokenChar (c : Char) : Bool := c != '\x7b' && c != '\x7d'

/-- All matches of the placeholder-detection regex (an opening brace, one or
more non-brace characters, a closing brace) over the text, leftmost first,
as in `formatted.match(...)` with the `g` flag.  Scanning forward one
character at a time is equivalent to resuming after each match, because a
match contains no opening brace after its first character. -/
def findPlaceholders : List Char → List (List Char)
  | [] => []
  | c :: rest =>
    if c = '\x7b' then
      if (rest.takeWhile isTokenChar) ≠ [] ∧
          (rest.drop (rest.takeWhile isTokenChar).length).head? = some '\x7d' then
        ('\x7b' :: (rest.takeWhile isTokenChar ++ ['\x7d'])) :: findPlaceholders rest
      else findPlaceholders rest
    else findPlaceholders rest

/-- `FlexibleOrchestrator.formatPrompt` from src/utils.ts: substitute every
key/value pair into the template, then fail if any placeholder token is
still present in the resulting text, naming all remaining tokens. -/
def formatPrompt (template : String) (kwargs : List (String × String)) : Except String String :=
  match findPlaceholders (formatPromptSubst template kwargs).data with
  | [] => .ok (formatPromptSubst template kwargs)
  | ps =>
    .error ("Missing required prompt variable(s): " ++ String.intercalate ", " (ps.map String.mk))

/-- Lazy-group engine for one `(.*?)` of the task regex: starting at the
current position, repeatedly try the closing literal here and, on a literal
match, the continuation `k` after it; when either fails, grow the captured
content by one character and retry (regex backtracking).  Returns the
captured content and the continuation's value. -/
def lazyUntil {α : Type} (pat : List Char) (k : List Char → Option α) :
    List Char → Option (List Char × α)
  | [] => none
  | c :: rest =>
    if ciStartsWith pat (c :: rest) then
      match k ((c :: rest).drop pat.length) with
      | some a => some ([], a)
      | none => (lazyUntil pat k rest).map (fun r => (c :: r.1, r.2))
    else (lazyUntil pat k rest).map (fun r => (c :: r.1, r.2))

/-- Matching of the task regex
`<task>\s*<type>(.*?)</type>\s*<description>(.*?)</description>\s*</task>`
(flags `g`, `i`, `s`) once the opening `<task>` literal has been consumed:
skip whitespace (`\s*` before a literal is deterministic because no
whitespace character can begin the literal), require `<type>`, capture the
first group lazily up to a `</type>` whose continuation succeeds, then the
same for `<description>`/`</description>`, and finally `\s*</task>`.
Returns ((type text, description text), rest after the match). -/
def matchTaskTail (text : List Char) : Option ((List Char × List Char) × List Char) :=
  let t1 := (text.dropWhile isWsChar)
  if ciStartsWith "<type>".data t1 then
    match lazyUntil "</type>".data
      (fun t3 =>
        let t4 := (t3.dropWhile isWsChar)
        if ciStartsWith "<description>".data t4 then
          lazyUntil "</description>".data
            (fun t6 =>
              let t7 := (t6.dropWhile isWsChar)
              if ciStartsWith "</task>".data t7 then some (t7.drop "</task>".data.length)
              else none)
            (t4.drop "<description>".data.length)
        else none)
      (t1.drop "<type>".data.length) with
    | some (ty, (de, rest)) => some ((ty, de), rest)
    | none => none
  else none

/-- The `taskRegex.exec` loop: scan for `<task>` start positions left to
right; on a full match, emit the two captured groups and resume after the
match; otherwise advance one character.  Fuel bounds the number of steps;
each step consumes at least one character, so `length + 1` fuel always
suffices. -/
def findTasksAux : Nat → List Char → List (List Char × List Char)
  | 0, _ => []
  | _ + 1, [] => []
  | fuel + 1, c :: rest =>
    if ciStartsWith "<task>".data (c :: rest) then
      match matchTaskTail ((c :: rest).drop "<task>".data.length) with
      | some ((ty, de), after) => (ty, de) :: findTasksAux fuel after
      | none => findTasksAux fuel rest
    else findTasksAux fuel rest

/-- All matches of the task regex over the tasks block. -/
def findTasks (text : List Char) : List (List Char × List Char) :=
  findTasksAux (text.length + 1) text

/-- The subtask-parsing step of `FlexibleOrchestrator.process`: every regex
match whose two captured groups are both truthy (nonempty before trimming)
becomes a `TaskInfo` with trimmed fields, in match order. -/
def parseTasks (tasksXml : String) : List TaskInfo :=
  (findTasks tasksXml.data).filterMap (fun g =>
    if g.1 ≠ [] ∧ g.2 ≠ [] then
      some ⟨jsTrim (String.mk g.1), jsTrim (String.mk g.2)⟩
    else none)

/-- The worker fan-out of `FlexibleOrchestrator.process`: for each subtask,
format the worker template with the reserved fields and the caller context,
call the completion client, and extract the `response` tag; all results are
collected index-aligned (Promise.all), and any failure fails the whole
fan-out. -/
def runWorkers (workerPrompt task : String) (context : List (String × String))
    (llm : String → Except String String) : List TaskInfo → Except String (List WorkerResult)
  | [] => .ok []
  | taskInfo :: rest =>
    match formatPrompt workerPrompt
        ([("original_task", task), ("task_type", taskInfo.type),
          ("task_description", taskInfo.description)] ++ context) with
    | .error e => .error e
    | .ok workerInput =>
      match llm workerInput with
      | .error e => .error e
      | .ok workerResponse =>
        match runWorkers workerPrompt task context llm rest with
        | .error e => .error e
        | .ok others =>
          .ok ({ type := taskInfo.type, description := taskInfo.description,
                 result := extractXml workerResponse "response" } :: others)

/-- `FlexibleOrchestrator.process` from src/utils.ts: format the
orchestrator template with `task` and the context fields (hard validation),
call the completion client once, extract `analysis` and the raw `tasks`
block, parse the subtasks, then run one worker per subtask and aggregate.
The source builds the substitution object by spreading the caller context
over the reserved fields; the association list `("task", task) :: context`
models this for contexts that do not rebind the reserved field names, which
is what the object spread would otherwise do. -/
def process (orchestratorPrompt workerPrompt task : String)
    (context : List (String × String)) (llm : String → Except String String) :
    Except String OrchestratorOutput :=
  match formatPrompt orchestratorPrompt (("task", task) :: context) with
  | .error e => .error e
  | .ok orchestratorInput =>
    match llm orchestratorInput with
    | .error e => .error e
    | .ok orchestratorResponse =>
      match runWorkers workerPrompt task context llm
          (parseTasks (extractXml orchestratorResponse "tasks")) with
      | .error e => .error e
      | .ok workerResults =>
        .ok { analysis := extractXml orchestratorResponse "analysis",
              worker_results := workerResults }

/-! ### Specification-side definitions

These render claim sentences verbatim, for comparison with the functions
modelled from the source. -/

/-- Claim C1's literal reading of the extraction contract: the trimmed text
strictly between the *first* occurrence of the opening delimiter and the
*first subsequent* closing delimiter (case-insensitive), and the empty
string when no such pair exists. -/
def extractXmlClaim (text tag : String) : String :=
  match splitFirst ("<" ++ tag ++ ">").data text.data with
  | none => ""
  | some (_, afterOpen) =>
    match splitFirst ("</" ++ tag ++ ">").data afterOpen with
    | none => ""
    | some (content, _) => jsTrim (String.mk content)

/-- First index below `n` satisfying `f`. -/
def firstIdxP (f : Nat → Bool) (n : Nat) : Option Nat := (List.range n).find? f

/-- Some case-insensitive occurrence of `cl` in `tl` starts at an index
`≥ lo`. -/
def hasCloseGe (cl tl : List Char) (lo : Nat) : Bool :=
  (List.range tl.length).any (fun j => decide (lo ≤ j) && ciStartsWith cl (tl.drop j))

/-- First position where the opening delimiter matches and is followed, at
least one character later, by a closing delimiter. -/
def firstStart (op cl tl : List Char) : Option Nat :=
  firstIdxP (fun p => ciStartsWith op (tl.drop p) && hasCloseGe cl tl (p + op.length + 1))
    tl.length

/-- Earliest closing-delimiter occurrence at an index `≥ lo`. -/
def firstCloseFrom (cl tl : List Char) (lo : Nat) : Option Nat :=
  firstIdxP (fun j => decide (lo ≤ j) && ciStartsWith cl (tl.drop j)) tl.length

/-- Index-level form of the amended C1 reading: locate the first opening
delimiter that is followed, at distance at least one, by a closing
delimiter, and slice from just after that opening delimiter up to the
earliest such closing delimiter; `none` when no opening delimiter has a
closing delimiter at distance at least one after it. -/
def specExtract (op cl tl : List Char) : Option (List Char) :=
  match firstStart op cl tl with
  | none => none
  | some p =>
    match firstCloseFrom cl tl (p + op.length + 1) with
    | some j => some ((tl.drop (p + op.length)).take (j - (p + op.length)))
    | none => none

/-- The amended C1 reading of `extractXml`: the trimmed content of the
first-match slice of `specExtract`, and the empty string when no
qualifying delimiter pair exists. -/
def extractXmlFirstMatch (text tag : String) : String :=
  match specExtract ("<" ++ tag ++ ">").data ("</" ++ tag ++ ">").data text.data with
  | some content => jsTrim (String.mk content)
  | none => ""

/-- Claim C9's notion of an unresolved placeholder: the text contains a
brace-delimited token — an opening brace, one or more non-brace characters,
a closing brace. -/
def hasUnresolvedToken (l : List Char) : Prop :=
  ∃ a w b, l = a ++ '\x7b' :: (w ++ '\x7d' :: b) ∧ w ≠ [] ∧ ∀ c ∈ w, isTokenChar c = true

/-! ### Concrete oracles used by witnesses and counterexamples -/

/-- A tasks block whose malformed `<task>` group (no description) comes
first, followed by two well-formed groups. -/
def txMalformedFirst : String :=
  "<task><type>A</type></task><task><type>B</type><description>D1</description></task><task><type>C</type><description>D2</description></task>"

/-- A tasks block with two well-formed `<task>` groups followed by a
malformed one (no description). -/
def txMalformedLast : String :=
  "<task><type>B</type><description>D1</description></task><task><type>C</type><description>D2</description></task><task><type>A</type></task>"

/-- A tasks block whose malformed group is missing its `<type>` sub-tag and
sits between two well-formed groups. -/
def txMissingTypeMid : String :=
  "<task><type>B</type><description>D1</description></task><task><description>D0</description></task><task><type>C</type><description>D2</description></task>"

/-- Completion stub for the orchestrator: answers the orchestrator prompt
`"T"` with an analysis and the two-well-formed-then-malformed tasks block,
and every worker prompt with a tagged echo of the prompt. -/
def c4StubLLM : String → Except String String := fun p =>
  if p = "T" then .ok ("<analysis>AN</analysis><tasks>" ++ txMalformedLast ++ "</tasks>")
  else .ok ("<response>R " ++ p ++ "</response>")

/-- Completion stub whose decomposition answer contains no tasks block. -/
def c4ZeroLLM : String → Except String String := fun _ =>
  .ok "<analysis>ZA</analysis>no tasks here"

/-- Completion stub for routing: answers the second (dispatch) call with
`"HANDLED"` and every other call — in particular the classification call —
with a mixed-case selection. -/
def routeStubLLM : String → Except String String := fun p =>
  .ok (if p = "P1\nInput: I" then "HANDLED" else "<selection>BILLING</selection>")

/-- Completion stub that always classifies to `billing`. -/
def routeCexLLM : String → Except String String := fun _ =>
  .ok "<selection>billing</selection>"

/-- Completion stub that always returns a passing evaluation. -/
def loopPassLLM : String → Except String String := fun _ =>
  .ok "<evaluation>Pass</evaluation><feedback>F</feedback>"

/-- Completion stub that always returns the untagged text `"x"`. -/
def constStubLLM : String → Except String String := fun _ => .ok "x"

/-- Completion stub that appends the fixed suffix `"!"` to each prompt per
call. -/
def chainSfxLLM : String → Except String String := fun p => .ok (p ++ "!")

/-- Completion stub that echoes each prompt with an `R:` marker. -/
def parStub : String → Except String String := fun p => .ok ("R:" ++ p)

/-- Completion stub that fails on exactly one of three fan-out prompts. -/
def parFailStub : String → Except String String := fun p =>
  if p = "P\nInput: b" then .error "boom" else .ok "fine"

/-- Decidable equality for `Except`, used to evaluate the models on
concrete oracles. -/
instance exceptDecEq {ε α : Type} [DecidableEq ε] [DecidableEq α] :
    DecidableEq (Except ε α) := fun a b =>
  match a, b with
  | .ok x, .ok y =>
    if h : x = y then .isTrue (congrArg Except.ok h)
    else .isFalse (fun hc => h (Except.ok.inj hc))
  | .error x, .error y =>
    if h : x = y then .isTrue (congrArg Except.error h)
    else .isFalse (fun hc => h (Except.error.inj hc))
  | .ok _, .error _ => .isFalse (fun hc => Except.noConfusion hc)
  | .error _, .ok _ => .isFalse (fun hc => Except.noConfusion hc)

/-! ### Theorems -/

/-- Claim C10: for every input string, `chain` applied to an empty prompt
list returns the initial input unchanged and sends no prompt to the
completion client — the empty chain is the identity. -/
theorem chain_nil_identity (input : String) (llm : String → Except String String) :
    chain input [] llm = .ok input ∧ chainCalls input [] llm = [] :=
  ⟨rfl, rfl⟩

/-- Claim C8: `chain` invokes the completion client once per prompt in
sequence with `prompt ++ "\nInput: " ++ currentResult`, threads each
returned text into the next step, and returns the last step's result; with
a stub appending a fixed suffix per call, the two-step chain applies p1's
transformation and then p2's, in that order. -/
theorem chain_sequential_threading :
    (∀ (input p : String) (ps : List String) (llm : String → Except String String),
      chain input (p :: ps) llm =
        (llm (p ++ "\nInput: " ++ input)).bind (fun result => chain result ps llm))
    ∧ (∀ (input p1 p2 : String) (llm : String → Except String String),
      chain input [p1, p2] llm =
        (llm (p1 ++ "\nInput: " ++ input)).bind
          (fun r1 => llm (p2 ++ "\nInput: " ++ r1)))
    ∧ chain "I" ["P1", "P2"] chainSfxLLM = .ok "P2\nInput: P1\nInput: I!!" := by
  refine ⟨fun input p ps llm => rfl, fun input p1 p2 llm => ?_, by decide⟩
  show (llm (p1 ++ "\nInput: " ++ input)).bind (fun r1 => chain r1 [p2] llm) = _
  cases h1 : llm (p1 ++ "\nInput: " ++ input) with
  | error e => rfl
  | ok r1 =>
    show chain r1 [p2] llm = llm (p2 ++ "\nInput: " ++ r1)
    show (llm (p2 ++ "\nInput: " ++ r1)).bind (fun r2 => chain r2 [] llm) = _
    cases h2 : llm (p2 ++ "\nInput: " ++ r1) with
    | error e => rfl
    | ok r2 => rfl

/-- Claim C2: one iteration of the generate/evaluate loop returns exactly
when the extracted verdict, uppercased, equals `"PASS"`; on any other
verdict it performs another generation attempt; `"pass"`, `"PASS"`,
`"Pass"` terminate while `"PASSED"`, `"PASS."` and the empty verdict do
not; and under an oracle that never produces a passing evaluation tag the
loop never returns a result for any amount of fuel. -/
theorem loop_pass_exact_termination :
    (∀ (llm : String → Except String String) (task ep gp : String) (fuel : Nat)
      (result : String) (memory : List String) (cot : List ChainOfThoughtItem) (ev fb : String),
      evaluate llm ep result task = .ok (ev, fb) →
        (jsToUpperCase ev = "PASS" →
          loopAux llm task ep gp (fuel + 1) result memory cot = .ok (some (result, cot)))
        ∧ (jsToUpperCase ev ≠ "PASS" →
          loopAux llm task ep gp (fuel + 1) result memory cot =
            (generate llm gp task (feedbackContext memory fb)).bind
              (fun tr => loopAux llm task ep gp fuel tr.2 (memory ++ [tr.2])
                (cot ++ [⟨tr.1, tr.2⟩]))))
    ∧ (jsToUpperCase "pass" = "PASS" ∧ jsToUpperCase "PASS" = "PASS"
        ∧ jsToUpperCase "Pass" = "PASS" ∧ jsToUpperCase "PASSED" ≠ "PASS"
        ∧ jsToUpperCase "PASS." ≠ "PASS" ∧ jsToUpperCase "" ≠ "PASS")
    ∧ (∀ (llm : String → Except String String) (task ep gp : String),
      (∀ p r, llm p = .ok r → jsToUpperCase (extractXml r "evaluation") ≠ "PASS") →
      ∀ (fuel : Nat) (result : String) (memory : List String)
        (cot : List ChainOfThoughtItem) (x : String × List ChainOfThoughtItem),
        loopAux llm task ep gp fuel result memory cot ≠ .ok (some x)) := by
  refine ⟨?_, by decide, ?_⟩
  · intro llm task ep gp fuel result memory cot ev fb hev
    constructor
    · intro hpass
      simp only [loopAux, hev]
      rw [if_pos hpass]
    · intro hfail
      simp only [loopAux, hev]
      rw [if_neg hfail]
      cases hg : generate llm gp task (feedbackContext memory fb) with
      | error e => rfl
      | ok tr => obtain ⟨th, r2⟩ := tr; rfl
  · intro llm task ep gp hnopass fuel
    induction fuel with
    | zero => intro result memory cot x hc; exact Option.noConfusion (Except.ok.inj hc)
    | succ n ih =>
      intro result memory cot x hc
      simp only [loopAux, evaluate] at hc
      cases h1 : llm (ep ++ "\nOriginal task: " ++ task ++ "\nContent to evaluate: " ++ result) with
      | error e => rw [h1] at hc; exact Except.noConfusion hc
      | ok r =>
        rw [h1] at hc
        simp only at hc
        rw [if_neg (hnopass _ _ h1)] at hc
        simp only [generate] at hc
        cases h2 : llm (if feedbackContext memory (extractXml r "feedback") = ""
            then gp ++ "\nTask: " ++ task
            else gp ++ "\n" ++ feedbackContext memory (extractXml r "feedback")
              ++ "\nTask: " ++ task) with
        | error e => rw [h2] at hc; exact Except.noConfusion hc
        | ok r2 =>
          rw [h2] at hc
          exact ih _ _ _ _ hc

/-- Witness for claim C2: a concrete passing verdict returns the first
candidate with a one-entry history, and a concrete never-passing oracle
yields no result after five iterations. -/
theorem loop_pass_exact_termination_witness :
    loopAux loopPassLLM "T" "E" "G" 1 "R" ["R"] [⟨"t", "R"⟩] = .ok (some ("R", [⟨"t", "R"⟩]))
    ∧ loopAux constStubLLM "T" "E" "G" 5 "R" [] [] ≠ .ok (some ("R", [])) :=
  ⟨(loop_pass_exact_termination.1 loopPassLLM "T" "E" "G" 0 "R" ["R"] [⟨"t", "R"⟩]
      "Pass" "F" (by decide)).1 (by decide),
   loop_pass_exact_termination.2.2 constStubLLM "T" "E" "G"
      (fun p r h => by cases h; decide) 5 "R" [] [] ("R", [])⟩

/-- Counterexample to claim C3: the chosen key `"billing"` is present in
the route table, yet `route` fails with the unknown-route error instead of
making the dispatch call, because the stored prompt is the empty string and
the source guards the lookup with a falsy test.  The last conjunct shows
the dispatch call the claim promises would have succeeded. -/
theorem route_present_key_counterexample :
    List.lookup "billing" [("billing", "")] = some ""
    ∧ route "I" [("billing", "")] routeCexLLM
        = .error "Selected route \x22billing\x22 is invalid."
    ∧ routeCexLLM ("" ++ "\nInput: " ++ "I") = .ok "<selection>billing</selection>" := by
  decide

/-- Claim C3 (amended): after trimming and lowercasing the extracted
selection, `route` fails with the unknown-route error — never a default —
both when the key is absent from the route table and when it is present but
mapped to the empty prompt; when the key is present with a nonempty prompt,
`route` invokes the completion client a second time with
`selectedPrompt ++ "\nInput: " ++ input` and returns that result. -/
theorem route_dispatch_amended :
    ∀ (input : String) (routes : List (String × String))
      (llm : String → Except String String) (resp : String),
      llm (selectorPrompt input (routes.map Prod.fst)) = .ok resp →
      (routes.lookup (jsToLowerCase (jsTrim (extractXml resp "selection"))) = none →
        route input routes llm =
          .error ("Selected route \x22"
            ++ jsToLowerCase (jsTrim (extractXml resp "selection")) ++ "\x22 is invalid."))
      ∧ (routes.lookup (jsToLowerCase (jsTrim (extractXml resp "selection"))) = some "" →
        route input routes llm =
          .error ("Selected route \x22"
            ++ jsToLowerCase (jsTrim (extractXml resp "selection")) ++ "\x22 is invalid."))
      ∧ (∀ p, routes.lookup (jsToLowerCase (jsTrim (extractXml resp "selection"))) = some p →
          p ≠ "" → route input routes llm = llm (p ++ "\nInput: " ++ input)) := by
  intro input routes llm resp hresp
  refine ⟨fun hnone => ?_, fun hempty => ?_, fun p hsome hne => ?_⟩
  · simp only [route, hresp, hnone]
  · simp only [route, hresp, hempty, if_true]
  · simp only [route, hresp, hsome]
    rw [if_neg hne]

/-- Witness for the amended claim C3: a stub classifier that emits
`<selection>BILLING</selection>` (mixed case) dispatches to the billing
prompt and returns the dispatch call's answer. -/
theorem route_dispatch_amended_witness :
    route "I" [("billing", "P1"), ("technical", "P2")] routeStubLLM = .ok "HANDLED" :=
  ((route_dispatch_amended "I" [("billing", "P1"), ("technical", "P2")] routeStubLLM
      "<selection>BILLING</selection>" (by decide)).2.2 "P1" (by decide)
        (by decide)).trans (by decide)

/-- Dropping as many leading characters as the matched `takeWhile` prefix is
the same as `dropWhile`. -/
theorem drop_len_takeWhile (p : Char → Bool) (l : List Char) :
    l.drop (l.takeWhile p).length = l.dropWhile p := by
  induction l with
  | nil => rfl
  | cons c rest ih =>
    cases hpc : p c with
    | true =>
      rw [List.takeWhile_cons_of_pos hpc, List.dropWhile_cons_of_pos hpc]
      simpa using ih
    | false =>
      rw [List.takeWhile_cons_of_neg (by simp [hpc]), List.dropWhile_cons_of_neg (by simp [hpc])]
      rfl

/-- If the placeholder scan finds any match, the text contains a
brace-delimited token. -/
theorem findPlaceholders_nonempty_token (l : List Char)
    (h : findPlaceholders l ≠ []) : hasUnresolvedToken l := by
  induction l with
  | nil => exact absurd rfl h
  | cons c rest ih =>
    by_cases hc : c = '\x7b'
    · subst hc
      by_cases hcond : (rest.takeWhile isTokenChar) ≠ [] ∧
          (rest.drop (rest.takeWhile isTokenChar).length).head? = some '\x7d'
      · obtain ⟨hne, hhead⟩ := hcond
        cases htail : rest.drop (rest.takeWhile isTokenChar).length with
        | nil => rw [htail] at hhead; exact Option.noConfusion hhead
        | cons d tail =>
          rw [htail] at hhead
          have hd : d = '\x7d' := Option.some.inj hhead
          refine ⟨[], rest.takeWhile isTokenChar, tail, ?_, hne,
            fun ch hch => List.mem_takeWhile_imp hch⟩
          have hsplit : rest.takeWhile isTokenChar ++
              rest.drop (rest.takeWhile isTokenChar).length = rest := by
            rw [drop_len_takeWhile]
            exact List.takeWhile_append_dropWhile _ _
          rw [htail, hd] at hsplit
          simpa using congrArg (List.cons '\x7b') hsplit.symm
      · rw [findPlaceholders, if_pos rfl, if_neg hcond] at h
        obtain ⟨a, w, b, heq, hw, hall⟩ := ih h
        exact ⟨'\x7b' :: a, w, b, by rw [heq, List.cons_append], hw, hall⟩
    · rw [findPlaceholders, if_neg hc] at h
      obtain ⟨a, w, b, heq, hw, hall⟩ := ih h
      exact ⟨c :: a, w, b, by rw [heq, List.cons_append], hw, hall⟩

/-- If the text contains a brace-delimited token, the placeholder scan
finds a match. -/
theorem token_findPlaceholders_nonempty (l : List Char)
    (ht : hasUnresolvedToken l) : findPlaceholders l ≠ [] := by
  obtain ⟨a, w, b, heq, hw, hall⟩ := ht
  subst heq
  induction a with
  | nil =>
    have htw : ((w ++ '\x7d' :: b).takeWhile isTokenChar) = w := by
      rw [List.takeWhile_append_of_pos hall, List.takeWhile_cons_of_neg (by decide)]
      simp
    rw [List.nil_append, findPlaceholders, if_pos rfl, if_pos ?_]
    · exact List.cons_ne_nil _ _
    · constructor
      · rw [htw]; exact hw
      · rw [htw, List.drop_left]; rfl
  | cons c a2 ih =>
    rw [List.cons_append]
    by_cases hc : c = '\x7b'
    · subst hc
      by_cases hcond : ((a2 ++ '\x7b' :: (w ++ '\x7d' :: b)).takeWhile isTokenChar) ≠ [] ∧
          ((a2 ++ '\x7b' :: (w ++ '\x7d' :: b)).drop
            ((a2 ++ '\x7b' :: (w ++ '\x7d' :: b)).takeWhile isTokenChar).length).head?
            = some '\x7d'
      · rw [findPlaceholders, if_pos rfl, if_pos hcond]
        exact List.cons_ne_nil _ _
      · rw [findPlaceholders, if_pos rfl, if_neg hcond]
        exact ih
    · rw [findPlaceholders, if_neg hc]
      exact ih

/-- Claim C9: the orchestrator's missing-variable validation is a predicate
on the fully substituted output text, not on the original template:
formatting fails if and only if the text obtained by replacing every
braced key of the supplied mapping still contains some brace-delimited
token; in particular a token introduced by a substituted value triggers the
error unless a later mapping key replaces it. -/
theorem formatPrompt_validates_output :
    (∀ (template : String) (kwargs : List (String × String)),
      (∃ e, formatPrompt template kwargs = .error e)
        ↔ hasUnresolvedToken (formatPromptSubst template kwargs).data)
    ∧ formatPrompt "\x7ba\x7d" [("a", "\x7bb\x7d")]
        = .error "Missing required prompt variable(s): \x7bb\x7d"
    ∧ formatPrompt "\x7ba\x7d" [("a", "\x7bb\x7d"), ("b", "x")] = .ok "x" := by
  refine ⟨?_, by decide, by decide⟩
  intro template kwargs
  constructor
  · rintro ⟨e, he⟩
    by_cases h : findPlaceholders (formatPromptSubst template kwargs).data = []
    · rw [formatPrompt, h] at he
      exact Except.noConfusion he
    · exact findPlaceholders_nonempty_token _ h
  · intro ht
    have h := token_findPlaceholders_nonempty _ ht
    cases hfp : findPlaceholders (formatPromptSubst template kwargs).data with
    | nil => exact absurd hfp h
    | cons tok toks =>
      refine ⟨"Missing required prompt variable(s): "
        ++ String.intercalate ", " ((tok :: toks).map String.mk), ?_⟩
      rw [formatPrompt, hfp]

/-- Claim C5: if substituting `task` and all context fields leaves a
placeholder unresolved, `process` fails with the missing-variable error —
the same error `formatPrompt` raises, naming the remaining tokens — for
every completion oracle, i.e. before any completion call for that template
is made; the spec's example with `task` supplied but `extra` unresolved
yields the error naming `extra`. -/
theorem process_missing_variable_fails_first :
    (∀ (op wp task : String) (context : List (String × String))
      (llm : String → Except String String) (e : String),
      formatPrompt op (("task", task) :: context) = .error e →
        process op wp task context llm = .error e)
    ∧ (∀ (template : String) (kwargs : List (String × String))
        (tok : List Char) (toks : List (List Char)),
        findPlaceholders (formatPromptSubst template kwargs).data = tok :: toks →
        formatPrompt template kwargs =
          .error ("Missing required prompt variable(s): "
            ++ String.intercalate ", " ((tok :: toks).map String.mk)))
    ∧ formatPrompt "\x7btask\x7d and \x7bextra\x7d" [("task", "T")]
        = .error "Missing required prompt variable(s): \x7bextra\x7d" := by
  refine ⟨?_, ?_, by decide⟩
  · intro op wp task context llm e he
    simp only [process, he]
  · intro template kwargs tok toks hfp
    rw [formatPrompt, hfp]

/-- Witness for claim C5: a template with an unresolved `extra` placeholder
makes `process` fail with the error naming it, under an arbitrary concrete
oracle. -/
theorem process_missing_variable_fails_first_witness :
    process "O \x7bextra\x7d" "W" "T" [] constStubLLM
      = .error "Missing required prompt variable(s): \x7bextra\x7d" :=
  process_missing_variable_fails_first.1 "O \x7bextra\x7d" "W" "T" [] constStubLLM
    "Missing required prompt variable(s): \x7bextra\x7d" (by decide)

/-- Folding the fan-out body back into `parallel` (pure unfolding of the
two plain definitions). -/
theorem parallel_fold (prompt : String) (xs : List String)
    (llm : String → Except String String) :
    promiseAll (List.map llm (List.map (fun input => prompt ++ "\nInput: " ++ input) xs))
      = parallel prompt xs llm := rfl

/-- Unfolding of `parallel` on a first input: the head call is examined,
then the fan-out over the remaining inputs. -/
theorem parallel_cons (prompt x : String) (xs : List String)
    (llm : String → Except String String) :
    parallel prompt (x :: xs) llm =
      match llm (prompt ++ "\nInput: " ++ x) with
      | .error e => .error e
      | .ok a =>
        match parallel prompt xs llm with
        | .error e => .error e
        | .ok as => .ok (a :: as) := by
  cases hx : llm (prompt ++ "\nInput: " ++ x) with
  | error e => simp only [parallel, parallelCalls, List.map_cons, promiseAll, hx]
  | ok a =>
    cases hr : parallel prompt xs llm with
    | error e =>
      simp only [parallel, parallelCalls, List.map_cons, promiseAll, hx]
      rw [parallel_fold, hr]
    | ok as =>
      simp only [parallel, parallelCalls, List.map_cons, promiseAll, hx]
      rw [parallel_fold, hr]

/-- A successful fan-out's result list is index-aligned with the inputs:
`results[i]` is the successful completion of the prompt built from
`inputs[i]`. -/
theorem parallel_ok_aligned (prompt : String) (inputs : List String)
    (llm : String → Except String String) :
    ∀ (results : List String), parallel prompt inputs llm = .ok results →
      results.length = inputs.length
      ∧ ∀ (i : Nat) (h1 : i < inputs.length) (h2 : i < results.length),
          llm (prompt ++ "\nInput: " ++ inputs.get ⟨i, h1⟩) = .ok (results.get ⟨i, h2⟩) := by
  induction inputs with
  | nil =>
    intro results h
    have hres : results = [] := (Except.ok.inj h).symm
    subst hres
    exact ⟨rfl, fun i h1 _ => absurd h1 (Nat.not_lt_zero i)⟩
  | cons x xs ih =>
    intro results h
    rw [parallel_cons] at h
    cases hx : llm (prompt ++ "\nInput: " ++ x) with
    | error e => simp only [hx] at h; exact Except.noConfusion h
    | ok a =>
      simp only [hx] at h
      cases hr : parallel prompt xs llm with
      | error e => simp only [hr] at h; exact Except.noConfusion h
      | ok as =>
        simp only [hr] at h
        have hres : results = a :: as := (Except.ok.inj h).symm
        subst hres
        obtain ⟨hlen, hal⟩ := ih as hr
        refine ⟨by simpa using hlen, ?_⟩
        intro i h1 h2
        cases i with
        | zero => exact hx
        | succ j => exact hal j (Nat.lt_of_succ_lt_succ h1) (Nat.lt_of_succ_lt_succ h2)

/-- When every per-input completion call succeeds, the fan-out succeeds. -/
theorem parallel_all_ok (prompt : String) (inputs : List String)
    (llm : String → Except String String)
    (h : ∀ x ∈ inputs, exceptOk (llm (prompt ++ "\nInput: " ++ x)) = true) :
    exceptOk (parallel prompt inputs llm) = true := by
  induction inputs with
  | nil => rfl
  | cons x xs ih =>
    have hx := h x (List.mem_cons_self x xs)
    have hxs := ih (fun y hy => h y (List.mem_cons_of_mem _ hy))
    rw [parallel_cons]
    cases hc : llm (prompt ++ "\nInput: " ++ x) with
    | error e => rw [hc] at hx; exact Bool.noConfusion hx
    | ok a =>
      cases hp : parallel prompt xs llm with
      | error e => rw [hp] at hxs; exact Bool.noConfusion hxs
      | ok as => rfl

/-- A failing member call makes the whole fan-out fail. -/
theorem parallel_mem_error (prompt : String) (inputs : List String)
    (llm : String → Except String String) (x e : String)
    (hx : x ∈ inputs) (he : llm (prompt ++ "\nInput: " ++ x) = .error e) :
    exceptOk (parallel prompt inputs llm) = false := by
  induction inputs with
  | nil => exact absurd hx (List.not_mem_nil x)
  | cons y ys ih =>
    rw [parallel_cons]
    cases hcy : llm (prompt ++ "\nInput: " ++ y) with
    | error e2 => rfl
    | ok a =>
      rcases List.mem_cons.mp hx with hxy | hmem
      · subst hxy; rw [hcy] at he; exact Except.noConfusion he
      · have hys := ih hmem
        cases hp : parallel prompt ys llm with
        | error e2 => rfl
        | ok as => rw [hp] at hys; exact Bool.noConfusion hys

/-- Every subtask of a successful worker fan-out had a successful template
formatting and a successful completion call. -/
theorem runWorkers_ok_all (wp task : String) (context : List (String × String))
    (llm : String → Except String String) :
    ∀ (l : List TaskInfo) (rs : List WorkerResult),
      runWorkers wp task context llm l = .ok rs →
      ∀ ti ∈ l, ∃ wi,
        formatPrompt wp ([("original_task", task), ("task_type", ti.type),
          ("task_description", ti.description)] ++ context) = .ok wi
        ∧ ∃ r, llm wi = .ok r := by
  intro l
  induction l with
  | nil => intro rs h ti hti; exact absurd hti (List.not_mem_nil ti)
  | cons t ts ih =>
    intro rs h ti hti
    rw [runWorkers] at h
    cases hf : formatPrompt wp ([("original_task", task), ("task_type", t.type),
        ("task_description", t.description)] ++ context) with
    | error e => simp only [hf] at h; exact Except.noConfusion h
    | ok wi =>
      simp only [hf] at h
      cases hl : llm wi with
      | error e => simp only [hl] at h; exact Except.noConfusion h
      | ok r =>
        simp only [hl] at h
        cases hrest : runWorkers wp task context llm ts with
        | error e => simp only [hrest] at h; exact Except.noConfusion h
        | ok others =>
          rcases List.mem_cons.mp hti with hti1 | hti2
          · subst hti1; exact ⟨wi, hf, r, hl⟩
          · exact ih others hrest ti hti2

/-- A subtask whose completion call fails makes the whole worker fan-out
fail. -/
theorem runWorkers_member_error (wp task : String) (context : List (String × String))
    (llm : String → Except String String) :
    ∀ (l : List TaskInfo) (ti : TaskInfo) (wi e : String), ti ∈ l →
      formatPrompt wp ([("original_task", task), ("task_type", ti.type),
        ("task_description", ti.description)] ++ context) = .ok wi →
      llm wi = .error e →
      exceptOk (runWorkers wp task context llm l) = false := by
  intro l
  induction l with
  | nil => intro ti wi e hti; exact absurd hti (List.not_mem_nil ti)
  | cons t ts ih =>
    intro ti wi e hti hwi hle
    rw [runWorkers]
    cases hf : formatPrompt wp ([("original_task", task), ("task_type", t.type),
        ("task_description", t.description)] ++ context) with
    | error e2 => rfl
    | ok wi2 =>
      simp only [hf]
      cases hl : llm wi2 with
      | error e2 => rfl
      | ok r =>
        simp only [hl]
        rcases List.mem_cons.mp hti with hti1 | hti2
        · subst hti1
          rw [hwi] at hf
          have hwi2 : wi = wi2 := Except.ok.inj hf
          subst hwi2
          rw [hle] at hl
          exact Except.noConfusion hl
        · have hrec := ih ti wi e hti2 hwi hle
          cases hrest : runWorkers wp task context llm ts with
          | error e2 => rfl
          | ok others => rw [hrest] at hrec; exact Bool.noConfusion hrec

/-- Claim C7: for both concurrent components — the `parallel` fan-out and
the orchestrator's worker dispatch — the aggregate succeeds only if every
individual completion call succeeds, and any single failing call fails the
whole aggregate, so no partial result list is ever returned. -/
theorem fan_out_fail_fast :
    (∀ (prompt : String) (inputs : List String) (llm : String → Except String String)
      (results : List String), parallel prompt inputs llm = .ok results →
        ∀ x ∈ inputs, ∃ r, llm (prompt ++ "\nInput: " ++ x) = .ok r)
    ∧ (∀ (prompt : String) (inputs : List String) (llm : String → Except String String)
      (x e : String), x ∈ inputs → llm (prompt ++ "\nInput: " ++ x) = .error e →
        exceptOk (parallel prompt inputs llm) = false)
    ∧ (∀ (op wp task : String) (context : List (String × String))
      (llm : String → Except String String) (out : OrchestratorOutput)
      (oi oresp : String),
      process op wp task context llm = .ok out →
      formatPrompt op (("task", task) :: context) = .ok oi → llm oi = .ok oresp →
        ∀ ti ∈ parseTasks (extractXml oresp "tasks"), ∃ wi,
          formatPrompt wp ([("original_task", task), ("task_type", ti.type),
            ("task_description", ti.description)] ++ context) = .ok wi
          ∧ ∃ r, llm wi = .ok r)
    ∧ (∀ (op wp task : String) (context : List (String × String))
      (llm : String → Except String String) (oi oresp : String) (ti : TaskInfo) (wi e : String),
      formatPrompt op (("task", task) :: context) = .ok oi → llm oi = .ok oresp →
      ti ∈ parseTasks (extractXml oresp "tasks") →
      formatPrompt wp ([("original_task", task), ("task_type", ti.type),
        ("task_description", ti.description)] ++ context) = .ok wi →
      llm wi = .error e →
        exceptOk (process op wp task context llm) = false) := by
  refine ⟨?_, ?_, ?_, ?_⟩
  · intro prompt inputs llm results h x hx
    obtain ⟨hlen, hal⟩ := parallel_ok_aligned prompt inputs llm results h
    obtain ⟨⟨i, h1⟩, hxeq⟩ := List.mem_iff_get.mp hx
    subst hxeq
    exact ⟨results.get ⟨i, hlen ▸ h1⟩, hal i h1 (hlen ▸ h1)⟩
  · intro prompt inputs llm x e hx he
    exact parallel_mem_error prompt inputs llm x e hx he
  · intro op wp task context llm out oi oresp h hoi horesp ti hti
    simp only [process, hoi, horesp] at h
    cases hrw : runWorkers wp task context llm (parseTasks (extractXml oresp "tasks")) with
    | error e => rw [hrw] at h; exact Except.noConfusion h
    | ok ws => exact runWorkers_ok_all wp task context llm _ ws hrw ti hti
  · intro op wp task context llm oi oresp ti wi e hoi horesp hti hwi hle
    simp only [process, hoi, horesp]
    cases hrw : runWorkers wp task context llm (parseTasks (extractXml oresp "tasks")) with
    | error e2 => rfl
    | ok ws =>
      have hrec := runWorkers_member_error wp task context llm _ ti wi e hti hwi hle
      rw [hrw] at hrec
      exact Bool.noConfusion hrec

/-- Witness for claim C7: with one of three fan-out calls forced to fail,
the aggregate is a failure, not a partial result list. -/
theorem fan_out_fail_fast_witness :
    exceptOk (parallel "P" ["a", "b", "c"] parFailStub) = false :=
  fan_out_fail_fast.2.1 "P" ["a", "b", "c"] parFailStub "b" "boom" (by decide) (by decide)

/-- Claim C6: `parallel` builds one prompt per input
(`prompt ++ "\nInput: " ++ inputs[i]`), and when every call succeeds it
returns a list of the same length as the inputs, in which `results[i]` is
the completion of `inputs[i]` — the alignment is by index, independent of
any completion order. -/
theorem parallel_index_aligned :
    (∀ (prompt : String) (inputs : List String) (llm : String → Except String String)
      (results : List String), parallel prompt inputs llm = .ok results →
        results.length = inputs.length
        ∧ ∀ (i : Nat) (h1 : i < inputs.length) (h2 : i < results.length),
            llm (prompt ++ "\nInput: " ++ inputs.get ⟨i, h1⟩) = .ok (results.get ⟨i, h2⟩))
    ∧ (∀ (prompt : String) (inputs : List String) (llm : String → Except String String),
      (∀ x ∈ inputs, exceptOk (llm (prompt ++ "\nInput: " ++ x)) = true) →
        exceptOk (parallel prompt inputs llm) = true)
    ∧ (∀ (prompt : String) (inputs : List String),
        (parallelCalls prompt inputs).length = inputs.length) :=
  ⟨fun prompt inputs llm => parallel_ok_aligned prompt inputs llm,
   fun prompt inputs llm => parallel_all_ok prompt inputs llm,
   fun _ inputs => List.length_map inputs _⟩

/-- Witness for claim C6: a three-input fan-out under a concrete echo stub
returns three index-aligned results; the middle one is checked. -/
theorem parallel_index_aligned_witness :
    (["R:P\nInput: a", "R:P\nInput: b", "R:P\nInput: c"] : List String).length
      = (["a", "b", "c"] : List String).length
    ∧ parStub ("P" ++ "\nInput: " ++ (["a", "b", "c"] : List String).get ⟨1, by decide⟩)
        = .ok ((["R:P\nInput: a", "R:P\nInput: b", "R:P\nInput: c"] : List String).get
            ⟨1, by decide⟩) :=
  have h := parallel_index_aligned.1 "P" ["a", "b", "c"] parStub
    ["R:P\nInput: a", "R:P\nInput: b", "R:P\nInput: c"] (by decide)
  ⟨h.1, h.2 1 (by decide) (by decide)⟩

/-- Counterexample to claim C4: on a tasks block whose malformed group
(missing the description sub-tag) precedes the well-formed groups, the lazy
task regex backtracks across the malformed group and merges it with the
next well-formed group: the parse yields two SubTasks, but the first one
carries a corrupted type spanning both groups instead of the first
well-formed group's fields — the malformed group is not silently
skipped. -/
theorem task_parse_merges_malformed_counterexample :
    parseTasks txMalformedFirst
      = [⟨"A</type></task><task><type>B", "D1"⟩, ⟨"C", "D2"⟩]
    ∧ parseTasks txMalformedFirst ≠ [⟨"B", "D1"⟩, ⟨"C", "D2"⟩] := by
  constructor
  · decide
  · decide

/-- Claim C4 (amended): the decomposition parse extracts every well-formed
`<task>` group in order, case-insensitively and tolerating embedded
newlines, and zero parsed subtasks yields a result with an empty
worker-result list.  Malformed groups never abort the parse, but they are
not always silently skipped: a malformed group that does not open a
`<type>` sub-tag directly after `<task>` (e.g. one missing the `<type>`
sub-tag) is skipped cleanly even when well-formed groups surround it, while
a malformed group of the form `<task><type>…</type></task>` (missing the
`<description>` sub-tag) is skipped only when no well-formed group follows
it — when one does, the lazy regex backtracks across the malformed group
and merges it with that following group into a single SubTask whose type
field spans the intervening text.  In particular, a response with two
well-formed task blocks followed by one malformed block (missing
description) yields exactly two SubTasks and two WorkerResults preserving
the well-formed blocks' order. -/
theorem task_parse_amended :
    (∀ (op wp task : String) (context : List (String × String))
      (llm : String → Except String String) (oi oresp : String),
      formatPrompt op (("task", task) :: context) = .ok oi →
      llm oi = .ok oresp →
      parseTasks (extractXml oresp "tasks") = [] →
      process op wp task context llm = .ok ⟨extractXml oresp "analysis", []⟩)
    ∧ parseTasks txMalformedLast = [⟨"B", "D1"⟩, ⟨"C", "D2"⟩]
    ∧ parseTasks txMissingTypeMid = [⟨"B", "D1"⟩, ⟨"C", "D2"⟩]
    ∧ parseTasks txMalformedFirst
        = [⟨"A</type></task><task><type>B", "D1"⟩, ⟨"C", "D2"⟩]
    ∧ parseTasks "<TASK>\n <Type>B</TYPE>\n<description>D1\nD2</Description>\n</task>"
        = [⟨"B", "D1\nD2"⟩]
    ∧ process "\x7btask\x7d" "\x7btask_type\x7d|\x7btask_description\x7d" "T" [] c4StubLLM
        = .ok ⟨"AN", [⟨"B", "D1", "R B|D1"⟩, ⟨"C", "D2", "R C|D2"⟩]⟩ := by
  refine ⟨?_, by decide, by decide, by decide, by decide, by decide⟩
  intro op wp task context llm oi oresp h1 h2 h3
  simp only [process, h1, h2, h3, runWorkers]

/-- Witness for the amended claim C4: a decomposition answer with no
parsable tasks yields a successful result carrying the analysis and an
empty worker-result list. -/
theorem task_parse_amended_witness :
    process "O" "W" "T" [] c4ZeroLLM = .ok ⟨"ZA", []⟩ :=
  task_parse_amended.1 "O" "W" "T" [] c4ZeroLLM "O" "<analysis>ZA</analysis>no tasks here"
    (by decide) (by decide) (by decide)

/-- A nonempty pattern never matches at the end of the text. -/
theorem ciStartsWith_nil (pat : List Char) (h : pat ≠ []) :
    ciStartsWith pat [] = false := by
  cases pat with
  | nil => exact absurd rfl h
  | cons p ps => rfl

/-- A nonempty pattern matching at the head of `l` forces `l` nonempty. -/
theorem ciStartsWith_ne_nil (cl l : List Char) (hcl : cl ≠ [])
    (h : ciStartsWith cl l = true) : l ≠ [] := by
  cases cl with
  | nil => exact absurd rfl hcl
  | cons p ps =>
    cases l with
    | nil => exact Bool.noConfusion h
    | cons c cs => exact List.cons_ne_nil c cs

/-- `find?` over `range (n+1)` examined at the head index. -/
theorem find?_range_succ (f : Nat → Bool) (n : Nat) :
    (List.range (n + 1)).find? f =
      if f 0 then some 0 else ((List.range n).find? (fun j => f (j + 1))).map (· + 1) := by
  rw [List.range_succ_eq_map]
  cases h0 : f 0 with
  | true => rw [List.find?_cons_of_pos _ h0]; simp
  | false =>
    rw [List.find?_cons_of_neg _ (by simp [h0]), List.find?_map, if_neg Bool.false_ne_true]
    rfl

/-- `any` over `range (n+1)` examined at the head index. -/
theorem any_range_succ (f : Nat → Bool) (n : Nat) :
    (List.range (n + 1)).any f = (f 0 || (List.range n).any (fun j => f (j + 1))) := by
  rw [List.range_succ_eq_map]
  simp only [List.any_cons, List.any_map]
  rfl

/-- `find?` is some exactly when `any` holds. -/
theorem find?_isSome_eq_any {α : Type} (l : List α) (p : α → Bool) :
    (l.find? p).isSome = l.any p := by
  induction l with
  | nil => rfl
  | cons x xs ih =>
    cases hx : p x with
    | true => rw [List.find?_cons_of_pos _ hx]; simp [hx]
    | false => rw [List.find?_cons_of_neg _ (by simp [hx])]; simp [hx, ih]

/-- Characterisation of the leftmost-occurrence scanner: it returns the
take/drop split at the first index where the pattern matches. -/
theorem splitFirst_eq (pat : List Char) (hpat : pat ≠ []) :
    ∀ tl : List Char, splitFirst pat tl =
      (firstIdxP (fun j => ciStartsWith pat (tl.drop j)) tl.length).map
        (fun k => (tl.take k, tl.drop (k + pat.length))) := by
  intro tl
  induction tl with
  | nil => simp [splitFirst, ciStartsWith_nil pat hpat, firstIdxP]
  | cons c rest ih =>
    simp only [splitFirst]
    by_cases hp : ciStartsWith pat (c :: rest) = true
    · rw [if_pos hp, firstIdxP, List.length_cons, find?_range_succ,
        if_pos (by simpa using hp)]
      simp
    · rw [if_neg hp, ih, firstIdxP, firstIdxP, List.length_cons, find?_range_succ,
        if_neg (by simpa using hp)]
      simp only [List.drop_succ_cons, Option.map_map]
      congr 1
      funext k
      have harith : k + 1 + pat.length = (k + pat.length) + 1 := by omega
      simp [Function.comp, List.take_succ_cons, harith, List.drop_succ_cons]

/-- Shifting `hasCloseGe` across a head character. -/
theorem hasCloseGe_cons (cl : List Char) (c : Char) (rest : List Char) (lo : Nat) :
    hasCloseGe cl (c :: rest) (lo + 1) = hasCloseGe cl rest lo := by
  rw [hasCloseGe, hasCloseGe, List.length_cons, any_range_succ]
  simp [List.drop_succ_cons, Nat.add_le_add_iff_right]

/-- Shifting `firstCloseFrom` across a head character. -/
theorem firstCloseFrom_cons (cl : List Char) (c : Char) (rest : List Char) (lo : Nat) :
    firstCloseFrom cl (c :: rest) (lo + 1) = (firstCloseFrom cl rest lo).map (· + 1) := by
  rw [firstCloseFrom, firstCloseFrom, firstIdxP, firstIdxP, List.length_cons,
    find?_range_succ, if_neg (by simp)]
  congr 2
  funext j
  simp [List.drop_succ_cons, Nat.add_le_add_iff_right]

/-- `firstCloseFrom` with lower bound zero is a plain first-index search. -/
theorem firstCloseFrom_zero (cl tl : List Char) :
    firstCloseFrom cl tl 0 = firstIdxP (fun k => ciStartsWith cl (tl.drop k)) tl.length := by
  rw [firstCloseFrom]
  congr 1
  funext j
  simp

/-- `firstCloseFrom` searches the suffix beyond the lower bound. -/
theorem firstCloseFrom_shift (cl : List Char) :
    ∀ (lo : Nat) (tl : List Char),
      firstCloseFrom cl tl lo =
        (firstIdxP (fun k => ciStartsWith cl ((tl.drop lo).drop k)) (tl.drop lo).length).map
          (· + lo) := by
  intro lo
  induction lo with
  | zero =>
    intro tl
    rw [firstCloseFrom_zero]
    simp
  | succ m ih =>
    intro tl
    cases tl with
    | nil => simp [firstCloseFrom, firstIdxP]
    | cons c rest =>
      rw [firstCloseFrom_cons, ih, List.drop_succ_cons, Option.map_map]
      congr 1

/-- There is a closing occurrence at or beyond `lo` exactly when the scanner
finds the pattern in the suffix starting at `lo`. -/
theorem hasCloseGe_eq_splitFirst (cl : List Char) (hcl : cl ≠ []) (tl : List Char) (lo : Nat) :
    hasCloseGe cl tl lo = (splitFirst cl (tl.drop lo)).isSome := by
  rw [splitFirst_eq cl hcl, hasCloseGe, ← find?_isSome_eq_any,
    show (List.range tl.length).find? (fun j => decide (lo ≤ j) && ciStartsWith cl (tl.drop j))
      = firstCloseFrom cl tl lo from rfl,
    firstCloseFrom_shift]
  simp

/-- A position that cannot start a full match is skipped by the first-match
search. -/
theorem specExtract_cons_of_neg (op cl : List Char) (c : Char) (rest : List Char)
    (h : (ciStartsWith op (c :: rest) && hasCloseGe cl (c :: rest) (op.length + 1)) = false) :
    specExtract op cl (c :: rest) = specExtract op cl rest := by
  have hfs : firstStart op cl (c :: rest) = (firstStart op cl rest).map (· + 1) := by
    rw [firstStart, firstStart, firstIdxP, firstIdxP, List.length_cons, find?_range_succ,
      if_neg (by simpa using h)]
    congr 2
    funext j
    have harith : j + 1 + op.length + 1 = (j + op.length + 1) + 1 := by omega
    rw [List.drop_succ_cons, harith, hasCloseGe_cons]
  cases hp : firstStart op cl rest with
  | none => simp only [specExtract, hfs, hp, Option.map_none']
  | some p =>
    simp only [specExtract, hfs, hp, Option.map_some']
    have harith2 : p + 1 + op.length + 1 = p + op.length + 1 + 1 := by omega
    rw [harith2, firstCloseFrom_cons]
    cases hq : firstCloseFrom cl rest (p + op.length + 1) with
    | none => simp only [Option.map_none']
    | some j =>
      simp only [Option.map_some']
      have h3 : p + 1 + op.length = (p + op.length) + 1 := by omega
      have h4 : j + 1 - (p + op.length + 1) = j - (p + op.length) := by omega
      rw [h3, List.drop_succ_cons, h4]

/-- The regex engine modelled by `extractRaw` computes exactly the
first-match slice of the amended specification. -/
theorem extractRaw_eq_spec (op cl : List Char) (hcl : cl ≠ []) :
    ∀ tl : List Char, extractRaw op cl tl = specExtract op cl tl := by
  intro tl
  induction tl with
  | nil => simp [extractRaw, specExtract, firstStart, firstIdxP]
  | cons c rest ih =>
    simp only [extractRaw]
    by_cases hB : ciStartsWith op (c :: rest) = true
    · rw [if_pos hB]
      split
      · rename_i hd
        have hlen : (c :: rest).length ≤ op.length := List.drop_eq_nil_iff.mp hd
        have hclose : hasCloseGe cl (c :: rest) (op.length + 1) = false := by
          rw [hasCloseGe]
          apply List.any_eq_false.mpr
          intro j hj
          have hjlt : j < (c :: rest).length := List.mem_range.mp hj
          have hnle : ¬ (op.length + 1 ≤ j) := by omega
          simp [hnle]
        rw [ih, specExtract_cons_of_neg op cl c rest (by rw [hclose, Bool.and_false])]
      · rename_i d after hd
        have hafter : (c :: rest).drop (op.length + 1) = after := by
          have hdd := List.drop_drop 1 op.length (c :: rest)
          rw [hd] at hdd
          simpa using hdd.symm
        split
        · rename_i u v hsf
          have hclose : hasCloseGe cl (c :: rest) (op.length + 1) = true := by
            rw [hasCloseGe_eq_splitFirst cl hcl, hafter, hsf]; rfl
          have hfs : firstStart op cl (c :: rest) = some 0 := by
            rw [firstStart, firstIdxP, List.length_cons, find?_range_succ,
              if_pos (by simp [hB, hclose])]
          have hsp := splitFirst_eq cl hcl after
          rw [hsf] at hsp
          cases hk : firstIdxP (fun j => ciStartsWith cl (after.drop j)) after.length with
          | none => rw [hk] at hsp; exact absurd hsp (by simp)
          | some k =>
            rw [hk, Option.map_some'] at hsp
            have hu : u = after.take k :=
              congrArg Prod.fst (Option.some.inj hsp)
            have hfc : firstCloseFrom cl (c :: rest) (op.length + 1)
                = some (k + (op.length + 1)) := by
              rw [firstCloseFrom_shift, hafter, hk, Option.map_some']
            simp only [specExtract, hfs, Nat.zero_add, hfc]
            have harith : k + (op.length + 1) - op.length = k + 1 := by omega
            rw [harith, hd, List.take_succ_cons, hu]
        · rename_i hsf
          have hclose : hasCloseGe cl (c :: rest) (op.length + 1) = false := by
            rw [hasCloseGe_eq_splitFirst cl hcl, hafter, hsf]; rfl
          rw [ih, specExtract_cons_of_neg op cl c rest (by rw [hclose, Bool.and_false])]
    · rw [if_neg hB, ih, specExtract_cons_of_neg op cl c rest (by simp [hB])]

/-- Counterexample to claim C1: on `<a></a>G<a>x</a>` the content strictly
between the first opening delimiter and the first subsequent closing
delimiter is empty, so the claimed reading returns the empty string, but
`extractXml` returns `</a>G<a>x`: the regex group `(.+?)` needs at least
one character, so the engine skips the empty first pair and matches across
it. -/
theorem extractXml_not_first_pair_counterexample :
    extractXmlClaim "<a></a>G<a>x</a>" "a" = ""
    ∧ extractXml "<a></a>G<a>x</a>" "a" = "</a>G<a>x"
    ∧ extractXml "<a></a>G<a>x</a>" "a" ≠ extractXmlClaim "<a></a>G<a>x</a>" "a" := by
  refine ⟨by decide, by decide, by decide⟩

/-- Claim C1 (amended): for every input text and tag name, `extractXml`
returns the trimmed content between the first opening delimiter that is
followed, at least one character later, by a closing delimiter, and the
earliest such closing delimiter (case-insensitive tag matching, content may
span multiple lines); it returns the empty string, never failing, when no
such pair exists — in particular on text with no occurrence of the tag, and
it matches `<Reasoning>` for a request for `reasoning`. -/
theorem extractXml_first_match_amended :
    (∀ (text tag : String), extractXml text tag = extractXmlFirstMatch text tag)
    ∧ extractXml "<other>Some other content</other>" "data" = ""
    ∧ extractXml "<Reasoning> hi\nthere </reasoning>" "reasoning" = "hi\nthere" := by
  refine ⟨?_, by decide, by decide⟩
  intro text tag
  have hcl : ("</" ++ tag ++ ">").data ≠ [] := by
    simp [String.data_append]
  simp only [extractXml, extractXmlFirstMatch]
  rw [extractRaw_eq_spec _ _ hcl]

end Agents

